import Mathlib

/-!
Verification of the wordlist generator in `psa_wordlist.py`.

The Python source is shallowly embedded below: strings are Lean `String`
manipulated through their `List Char` data, Python `set` + `sorted` is
modelled as first-occurrence deduplication followed by a code-point
lexicographic sort, `OrderedDict` keys are modelled as a duplicate-free
insertion-ordered `List String`, and the wall clock
(`time.localtime().tm_year`) is an explicit `current_year` parameter.
Years and counts are natural numbers.
-/

set_option maxRecDepth 20000

set_option maxHeartbeats 1000000

/-! ### Python `sorted` on strings (code-point lexicographic order) -/

/-- The code points of a string, the key Python compares strings by. -/
def strKey (s : String) : List Nat := s.data.map Char.toNat

/-- Boolean lexicographic less-or-equal on code-point lists. -/
def natLexLe : List Nat → List Nat → Bool
  | [], _ => true
  | _ :: _, [] => false
  | a :: as, b :: bs => if a < b then true else if b < a then false else natLexLe as bs

/-- Python string comparison `a <= b`: lexicographic on code points. -/
def strLe (a b : String) : Prop := natLexLe (strKey a) (strKey b) = true

instance : DecidableRel strLe := fun _ _ => inferInstanceAs (Decidable (_ = true))

instance : IsTotal String strLe := by
  constructor
  intro a b
  show natLexLe (strKey a) (strKey b) = true ∨ natLexLe (strKey b) (strKey a) = true
  generalize strKey a = as
  generalize strKey b = bs
  induction as generalizing bs with
  | nil => left; rfl
  | cons a as ih =>
    cases bs with
    | nil => right; rfl
    | cons b bs =>
      rcases Nat.lt_trichotomy a b with h | h | h
      · left; simp [natLexLe, h]
      · subst h
        rcases ih bs with h2 | h2
        · left; simp [natLexLe, h2]
        · right; simp [natLexLe, h2]
      · right; simp [natLexLe, h, Nat.not_lt.mpr (Nat.le_of_lt h)]

instance : IsTrans String strLe := by
  constructor
  intro a b c h1 h2
  show natLexLe (strKey a) (strKey c) = true
  rw [strLe] at h1 h2
  generalize hgb : strKey b = bs at h1 h2
  generalize strKey a = as at h1 ⊢
  generalize strKey c = cs at h2 ⊢
  clear hgb
  induction as generalizing bs cs with
  | nil => rfl
  | cons a as ih =>
    cases bs with
    | nil => simp [natLexLe] at h1
    | cons b bs =>
      cases cs with
      | nil => simp [natLexLe] at h2
      | cons c cs =>
        simp only [natLexLe] at h1 h2 ⊢
        rcases Nat.lt_trichotomy a b with hab | hab | hab
        · rcases Nat.lt_trichotomy b c with hbc | hbc | hbc
          · simp [Nat.lt_trans hab hbc]
          · subst hbc
            simp [hab]
          · rw [if_neg (by omega), if_pos hbc] at h2
            exact absurd h2 (by simp)
        · subst hab
          rcases Nat.lt_trichotomy a c with hac | hac | hac
          · simp [hac]
          · subst hac
            simp only [Nat.lt_irrefl, if_false] at h1 h2 ⊢
            exact ih bs h1 cs h2
          · rw [if_neg (by omega), if_pos hac] at h2
            exact absurd h2 (by simp)
        · rw [if_neg (by omega), if_pos hab] at h1
          exact absurd h1 (by simp)

/-- Python `sorted` on a collection of strings. -/
def sortStrings (l : List String) : List String := List.insertionSort strLe l

/-- Strict code-point lexicographic order on strings (Python `a < b`). -/
def strLt (a b : String) : Prop := strKey a < strKey b

/-! ### Character and string helpers (Python `str` methods, ASCII range) -/

/-- Python `str.lower`. -/
def lowerStr (s : String) : String := ⟨s.data.map Char.toLower⟩

/-- Python `str.upper`. -/
def upperStr (s : String) : String := ⟨s.data.map Char.toUpper⟩

/-- Python `str.capitalize`: first character upper, rest lower. -/
def capitalizeStr (s : String) : String :=
  match s.data with
  | [] => ""
  | ch :: rest => ⟨ch.toUpper :: rest.map Char.toLower⟩

/-- The alternating-case form built in `make_case_variants`:
character at even index upper, odd index lower. -/
def altCaseStr (s : String) : String :=
  ⟨s.data.enum.map (fun p => if p.1 % 2 = 0 then p.2.toUpper else p.2.toLower)⟩

/-- Python `str.strip`: drop leading and trailing whitespace. -/
def pyStrip (s : String) : String :=
  ⟨List.reverse (List.dropWhile Char.isWhitespace
    (List.reverse (List.dropWhile Char.isWhitespace s.data)))⟩

/-- Python `str(y)[-2:]`: the last two characters of a string. -/
def lastTwoStr (s : String) : String := ⟨s.data.drop (s.data.length - 2)⟩

/-! ### Insertion-ordered deduplicated lists
(model of Python `set` accumulation and `OrderedDict` keys) -/

/-- Insert a string if absent, preserving first-insertion position. -/
def insertVar (l : List String) (v : String) : List String :=
  if v ∈ l then l else l ++ [v]

/-- Insert each element of `vs` in order. -/
def foldInsert (l : List String) (vs : List String) : List String :=
  vs.foldl insertVar l

/-- First-occurrence deduplication (Python `list(dict.fromkeys(...))`). -/
def dedupFirst (l : List String) : List String := foldInsert [] l

/-! ### Data tables from the source -/

/-- `COMMON_PASSWORDS` from the source. -/
def COMMON_PASSWORDS : List String :=
  ["123456", "password", "12345678", "qwerty", "abc123", "monkey", "letmein", "dragon",
   "111111", "baseball", "iloveyou", "trustno1", "sunshine", "master", "welcome", "shadow"]

/-- `LEET_MAP` from the source, as a lookup function. -/
def LEET_MAP (c : Char) : Option (List Char) :=
  match c with
  | 'a' => some ['4', '@']
  | 'b' => some ['8']
  | 'e' => some ['3']
  | 'i' => some ['1', '!']
  | 'l' => some ['1', '|']
  | 'o' => some ['0']
  | 's' => some ['5', '$']
  | 't' => some ['7']
  | 'g' => some ['9']
  | 'z' => some ['2']
  | _ => none

/-- `SPECIALS` from the source. -/
def SPECIALS : List Char := ['!', '@', '#', '$', '%', '&', '*', '?']

/-- `DEFAULT_LIMITS["max_results"]`. -/
def default_max_results : Nat := 50000

/-- `DEFAULT_LIMITS["year_range_limit"]`. -/
def year_range_limit : Nat := 30

/-! ### `make_case_variants` -/

/-- `make_case_variants`: the set `{token, lower, upper, capitalize}`,
plus the alternating-case form when the token has at most 8 characters,
returned via Python `sorted`. -/
def make_case_variants (token : String) : List String :=
  sortStrings (dedupFirst
    ([token, lowerStr token, upperStr token, capitalizeStr token] ++
      (if token.data.length ≤ 8 then [altCaseStr token] else [])))

/-! ### `apply_leets` -/

/-- The substitutable positions of a token: index and replacement list for
every character of the lower-cased token that has a `LEET_MAP` entry. -/
def leetPositions (token : String) : List (Nat × List Char) :=
  (token.data.map Char.toLower).enum.filterMap (fun p =>
    match LEET_MAP p.2 with
    | some repls => some (p.1, repls)
    | none => none)

/-- `itertools.combinations`: all sorted index-order selections of `r`
elements, in the order itertools emits them. -/
def combosOf : Nat → List α → List (List α)
  | 0, _ => [[]]
  | _ + 1, [] => []
  | r + 1, x :: xs => ((combosOf r xs).map (fun c => x :: c)) ++ combosOf (r + 1) xs

/-- `itertools.product`: Cartesian product of a list of lists, rightmost
factor varying fastest. -/
def prodLists : List (List Char) → List (List Char)
  | [] => [[]]
  | l :: ls => l.flatMap (fun x => (prodLists ls).map (fun p => x :: p))

/-- Build one leet variant: replace the characters of the original token at
`idxs` by the corresponding replacement choices. -/
def applySubs (token : String) (idxs : List Nat) (repl : List Char) : String :=
  ⟨(idxs.zip repl).foldl (fun arr p => arr.set p.1 p.2) token.data⟩

/-- All leet candidate variants in exploration order: substitution count
`r` from 1 to `min positions 3`, position combinations in itertools order,
then replacement products. -/
def leetCandidates (token : String) : List String :=
  (List.range' 1 (min (leetPositions token).length 3)).flatMap (fun r =>
    (combosOf r (leetPositions token)).flatMap (fun combo =>
      (prodLists (combo.map Prod.snd)).map (fun prod =>
        applySubs token (combo.map Prod.fst) prod)))

/-- The accumulation loop of `apply_leets`: add each candidate to the set
and return as soon as the set size has reached the cap (the check happens
after each insertion, as in the source). -/
def leetFold (cap : Nat) : List String → List String → List String
  | [], vs => vs
  | w :: ws, vs =>
    let vs2 := insertVar vs w
    if cap ≤ vs2.length then vs2 else leetFold cap ws vs2

/-- `apply_leets`: the original token plus capped leet variants, via
Python `sorted`. -/
def apply_leets (token : String) (max_variants : Nat) : List String :=
  sortStrings (leetFold max_variants (leetCandidates token) [token])

/-! ### `append_years` -/

/-- `append_years`: for each year of the inclusive range, the token with
the full year appended then the token with the two low-order digits
appended. -/
def append_years (token : String) (start_year end_year : Nat) : List String :=
  (List.range' start_year (end_year + 1 - start_year)).flatMap (fun y =>
    [token ++ toString y, token ++ lastTwoStr (toString y)])

/-! ### `attach_specials` -/

/-- `itertools.product(SPECIALS, repeat=n)` joined to strings. -/
def specialCombos (n : Nat) : List String :=
  (prodLists (List.replicate n SPECIALS)).map (fun l => ⟨l⟩)

/-- `attach_specials`: the token plus every symbol string of length 1 to
`max_suffix` appended and prepended, via Python `sorted`. -/
def attach_specials (token : String) (max_suffix : Nat) : List String :=
  sortStrings (foldInsert [token] ((List.range' 1 max_suffix).flatMap (fun n =>
    (specialCombos n).flatMap (fun s => [token ++ s, s ++ token]))))

/-! ### `generate_combinations` -/

/-- `itertools.permutations(l, r)`: ordered selections of `r` distinct
positions, in lexicographic index order. -/
def perms : Nat → List String → List (List String)
  | 0, _ => [[]]
  | r + 1, l => l.flatMap (fun x => (perms r (l.erase x)).map (fun p => x :: p))

/-- `list(dict.fromkeys([t for t in tokens if t]))`: drop empty strings,
keep first occurrences. -/
def tokens_unique (tokens : List String) : List String :=
  dedupFirst (tokens.filter (fun t => t ≠ ""))

/-- The full stream of joined permutations the combiner walks: arity `r`
from 1 to `max_comb`, each permutation joined without separator. -/
def combCandidates (tokens : List String) (max_comb : Nat) : List String :=
  (List.range' 1 max_comb).flatMap (fun r =>
    (perms r (tokens_unique tokens)).map (fun p => String.join p))

/-- The budget-aware dedup loop of `generate_combinations`: yield each
string the first time it is produced, stop the moment `max_results`
strings have been yielded. -/
def genCombLoop (max_results : Nat) : List String → List String → List String
  | [], seen => seen
  | w :: ws, seen =>
    if max_results ≤ seen.length then seen
    else genCombLoop max_results ws (insertVar seen w)

/-- `generate_combinations` (its yields, collected in order). -/
def generate_combinations (tokens : List String) (max_comb max_results : Nat) : List String :=
  genCombLoop max_results (combCandidates tokens max_comb) []

/-! ### `build_wordlist` -/

/-- The keyword arguments of `build_wordlist`, plus the wall-clock year
(`time.localtime().tm_year`) as an explicit parameter. -/
structure BuildConfig where
  names : List String
  dates : List String
  pets : List String
  custom : List String
  include_common : Bool
  leets : Bool
  append_years_opt : Bool
  start_year : Option Nat
  end_year : Option Nat
  attach_specials_opt : Bool
  max_results : Option Nat
  max_combination : Nat
  current_year : Nat
  deriving DecidableEq

/-- The mutable local state of one `build_wordlist` call: the accumulated
`variants` keys and the (re-assignable) `start_year` / `end_year` locals. -/
structure BuildState where
  variants : List String
  start_year : Option Nat
  end_year : Option Nat
  deriving DecidableEq

/-- Python `x or d` for an optional integer: `None` and `0` are falsy. -/
def pyOr (x : Option Nat) (d : Nat) : Nat :=
  match x with
  | some (n + 1) => n + 1
  | _ => d

/-- `extend_unique`: strip each entry and append it when non-empty and
not yet present. -/
def extend_unique (tokens : List String) (lst : List String) : List String :=
  lst.foldl (fun acc x =>
    let s := pyStrip x
    if s ≠ "" ∧ s ∉ acc then acc ++ [s] else acc) tokens

/-- Seed collection: the four named sources in fixed order, then the
common-password list when enabled. -/
def collectTokens (c : BuildConfig) : List String :=
  let t1 := extend_unique (extend_unique (extend_unique (extend_unique [] c.names)
    c.dates) c.pets) c.custom
  if c.include_common then extend_unique t1 COMMON_PASSWORDS else t1

/-- The year-defaulting and clamping block run before every single-token
`append_years` call: default missing bounds from the current year, then
pull the start year forward when the span exceeds `year_range_limit`. -/
def resolveYearsStep (current_year : Nat) (sy ey : Option Nat) : Nat × Nat :=
  let s := sy.getD (current_year - 10)
  let e := ey.getD (current_year + 1)
  if e - s > year_range_limit then (e - year_range_limit, e) else (s, e)

/-- The body of the inner `for v in make_case_variants(t)` loop: insert
the case variant, its leet variants, its year variants (resolving and
storing the year bounds), and its special variants. -/
def stepCaseVariant (c : BuildConfig) (st : BuildState) (v : String) : BuildState :=
  let vs1 := insertVar st.variants v
  let vs2 := if c.leets then foldInsert vs1 (apply_leets v 8) else vs1
  if c.append_years_opt then
    let p := resolveYearsStep c.current_year st.start_year st.end_year
    let vs3 := foldInsert vs2 (append_years v p.1 p.2)
    let vs4 := if c.attach_specials_opt then foldInsert vs3 (attach_specials v 2) else vs3
    ⟨vs4, some p.1, some p.2⟩
  else
    let vs4 := if c.attach_specials_opt then foldInsert vs2 (attach_specials v 2) else vs2
    ⟨vs4, st.start_year, st.end_year⟩

/-- The whole single-token expansion phase (`for t in tokens` loop). -/
def singlePhase (c : BuildConfig) (tokens : List String) : BuildState :=
  tokens.foldl (fun st t => (make_case_variants t).foldl (stepCaseVariant c) st)
    ⟨[], c.start_year, c.end_year⟩

/-- The year window used for a combination:
`(start_year or (current_year - 5), end_year or current_year)`. -/
def comboYearWindow (current_year : Nat) (sy ey : Option Nat) : Nat × Nat :=
  (pyOr sy (current_year - 5), pyOr ey current_year)

/-- The body of the combination loop for one combination: insert the
plain combination, capped leet variants, the combination year window, and
single-character special variants. -/
def stepCombo (c : BuildConfig) (sy ey : Option Nat) (vs : List String) (combo : String) :
    List String :=
  let vs1 := insertVar vs combo
  let vs2 := if c.leets then foldInsert vs1 (apply_leets combo 4) else vs1
  let vs3 := if c.append_years_opt then
      let w := comboYearWindow c.current_year sy ey
      foldInsert vs2 (append_years combo w.1 w.2)
    else vs2
  if c.attach_specials_opt then foldInsert vs3 (attach_specials combo 1) else vs3

/-- The combination loop: process each combination, breaking as soon as
the accumulated variants reach `max_results`. -/
def comboLoop (c : BuildConfig) (mr : Nat) (sy ey : Option Nat) :
    List String → List String → List String
  | [], vs => vs
  | combo :: rest, vs =>
    if mr ≤ vs.length then vs
    else comboLoop c mr sy ey rest (stepCombo c sy ey vs combo)

/-- `build_wordlist`: collect seeds, expand single tokens, insert the raw
tokens, consume the combiner under the budget, and truncate the final
ordered list to `max_results`. -/
def build_wordlist (c : BuildConfig) : List String :=
  let mr := pyOr c.max_results default_max_results
  let tokens := collectTokens c
  let st := singlePhase c tokens
  let vs := foldInsert st.variants tokens
  let combos := generate_combinations tokens c.max_combination mr
  let vs2 := comboLoop c mr st.start_year st.end_year combos vs
  if mr < vs2.length then vs2.take mr else vs2

/-! ### Concrete configurations used to settle individual claims -/

/-- A copy of a configuration with `max_results` replaced. -/
def setMaxResults (c : BuildConfig) (v : Option Nat) : BuildConfig :=
  ⟨c.names, c.dates, c.pets, c.custom, c.include_common, c.leets, c.append_years_opt,
    c.start_year, c.end_year, c.attach_specials_opt, v, c.max_combination, c.current_year⟩

/-- One seed token, every transform disabled, `max_results = 1`. -/
def cfgC2 : BuildConfig :=
  ⟨["ab"], [], [], [], false, false, false, none, none, false, some 1, 1, 2025⟩

/-- Two seed tokens with year appending over 2000-2030 and an effectively
unlimited `max_results`: a configuration whose full expansion has hundreds of
entries. -/
def cfgC3big : BuildConfig :=
  ⟨["ab"], ["4"], [], [], false, false, true, some 2000, some 2030, false,
    some 100000, 1, 2025⟩

/-- The same configuration as `cfgC3big` with `max_results = 3`. -/
def cfgC3small : BuildConfig := setMaxResults cfgC3big (some 3)

/-- The state after `build_wordlist` under `cfgC3big` has processed the very
first case variant `"AB"` of the first seed token: the head of the eventual
output is already determined here, because every later step only appends. -/
def firstStepC3 : BuildState :=
  stepCaseVariant cfgC3big ⟨[], some 2000, some 2030⟩ "AB"

/-- The final accumulated variants of a `build_wordlist` run under the C3
seed data, budget `mr`. -/
def vs2C3 (mr : Nat) : List String :=
  comboLoop cfgC3big mr (singlePhase cfgC3big ["ab", "4"]).start_year
    (singlePhase cfgC3big ["ab", "4"]).end_year
    (generate_combinations ["ab", "4"] 1 mr)
    (foldInsert (singlePhase cfgC3big ["ab", "4"]).variants ["ab", "4"])

/-- List extension: `l2` is `l1` with extra elements appended. -/
def extendsTo (l1 l2 : List String) : Prop := ∃ t, l2 = l1 ++ t

/-- A configuration carrying every offending field of the validation claim:
`max_results = 0`, `max_combination = 0`, and an explicit `end_year`
strictly below the explicit `start_year`, with year appending enabled. -/
def cfgC4 : BuildConfig :=
  ⟨["ab"], [], [], [], false, false, true, some 2030, some 2000, false, some 0, 0, 2025⟩

/-- Two seed tokens, years enabled with no explicit bounds, arity 2. -/
def cfgC5 : BuildConfig :=
  ⟨["4", "5"], [], [], [], false, false, true, none, none, false, some 100000, 2, 2025⟩

/-! ### Generic fold and insertion lemmas -/

theorem foldl_preserve {β : Type} {α : Type} {f : β → α → β} {P : β → Prop}
    (hf : ∀ b a, P b → P (f b a)) : ∀ (l : List α) (b : β), P b → P (l.foldl f b) := by
  intro l
  induction l with
  | nil => intro b hb; exact hb
  | cons x xs ih => intro b hb; exact ih _ (hf b x hb)

theorem nodup_insertVar {l : List String} (v : String) (h : l.Nodup) :
    (insertVar l v).Nodup := by
  unfold insertVar
  split
  · exact h
  · next hv => simp [List.nodup_append, h, hv]

theorem mem_insertVar_of_mem {l : List String} {x : String} (v : String) (h : x ∈ l) :
    x ∈ insertVar l v := by
  unfold insertVar
  split
  · exact h
  · exact List.mem_append_left _ h

theorem length_insertVar_le (l : List String) (v : String) :
    (insertVar l v).length ≤ l.length + 1 := by
  unfold insertVar
  split
  · omega
  · simp

theorem nodup_foldInsert {l : List String} (vs : List String) (h : l.Nodup) :
    (foldInsert l vs).Nodup :=
  foldl_preserve (fun _ a hb => nodup_insertVar a hb) vs l h

theorem mem_foldInsert_of_mem {l : List String} {x : String} (vs : List String) (h : x ∈ l) :
    x ∈ foldInsert l vs :=
  foldl_preserve (fun _ a hb => mem_insertVar_of_mem a hb) vs l h

theorem nodup_dedupFirst (l : List String) : (dedupFirst l).Nodup :=
  nodup_foldInsert l List.nodup_nil

theorem length_foldInsert_le (vs : List String) : ∀ l : List String,
    (foldInsert l vs).length ≤ l.length + vs.length := by
  induction vs with
  | nil => intro l; simp [foldInsert]
  | cons v vs ih =>
    intro l
    have h1 := ih (insertVar l v)
    have h2 := length_insertVar_le l v
    simp only [foldInsert, List.foldl_cons] at h1 ⊢
    simp only [List.length_cons]
    omega

theorem length_dedupFirst_le (l : List String) : (dedupFirst l).length ≤ l.length := by
  have := length_foldInsert_le l []
  simpa [dedupFirst] using this

/-! ### Lemmas about `sortStrings` -/

theorem sortStrings_perm (l : List String) : (sortStrings l).Perm l :=
  List.perm_insertionSort strLe l

theorem length_sortStrings (l : List String) : (sortStrings l).length = l.length :=
  (sortStrings_perm l).length_eq

theorem mem_sortStrings {x : String} {l : List String} : x ∈ sortStrings l ↔ x ∈ l :=
  (sortStrings_perm l).mem_iff

theorem nodup_sortStrings {l : List String} (h : l.Nodup) : (sortStrings l).Nodup :=
  ((sortStrings_perm l).nodup_iff).mpr h

theorem sorted_sortStrings (l : List String) : List.Sorted strLe (sortStrings l) :=
  List.sorted_insertionSort strLe l

/-! ### Lemmas about the capped leet accumulation -/

theorem leetFold_length_le (cap : Nat) (ws : List String) :
    ∀ vs : List String, vs.length < cap → (leetFold cap ws vs).length ≤ cap := by
  induction ws with
  | nil => intro vs h; exact Nat.le_of_lt h
  | cons w ws ih =>
    intro vs h
    simp only [leetFold]
    split
    · have := length_insertVar_le vs w
      omega
    · next h2 =>
      exact ih _ (Nat.lt_of_not_le h2)

theorem mem_leetFold_of_mem (cap : Nat) (ws : List String) :
    ∀ {vs : List String} {x : String}, x ∈ vs → x ∈ leetFold cap ws vs := by
  induction ws with
  | nil => intro vs x h; exact h
  | cons w ws ih =>
    intro vs x h
    simp only [leetFold]
    split
    · exact mem_insertVar_of_mem w h
    · exact ih (mem_insertVar_of_mem w h)

theorem leetFold_mono {cap1 cap2 : Nat} (h : cap1 ≤ cap2) (ws : List String) :
    ∀ {vs : List String} {x : String}, x ∈ leetFold cap1 ws vs → x ∈ leetFold cap2 ws vs := by
  induction ws with
  | nil => intro vs x hx; exact hx
  | cons w ws ih =>
    intro vs x hx
    simp only [leetFold] at hx ⊢
    split at hx
    · split
      · exact hx
      · exact mem_leetFold_of_mem cap2 ws hx
    · next h2 =>
      rw [if_neg (by omega)]
      exact ih hx

/-! ### Lemmas about the combiner loop -/

theorem genCombLoop_nodup (B : Nat) (ws : List String) :
    ∀ {seen : List String}, seen.Nodup → (genCombLoop B ws seen).Nodup := by
  induction ws with
  | nil => intro seen h; exact h
  | cons w ws ih =>
    intro seen h
    simp only [genCombLoop]
    split
    · exact h
    · exact ih (nodup_insertVar w h)

theorem genCombLoop_length_le (B : Nat) (ws : List String) :
    ∀ {seen : List String}, seen.length ≤ B → (genCombLoop B ws seen).length ≤ B := by
  induction ws with
  | nil => intro seen h; exact h
  | cons w ws ih =>
    intro seen h
    simp only [genCombLoop]
    split
    · exact h
    · next h2 =>
      have := length_insertVar_le seen w
      exact ih (by omega)

theorem mem_genCombLoop (B : Nat) (ws : List String) :
    ∀ {seen : List String} {x : String}, x ∈ genCombLoop B ws seen →
      x ∈ seen ∨ x ∈ ws := by
  induction ws with
  | nil => intro seen x h; exact Or.inl h
  | cons w ws ih =>
    intro seen x h
    simp only [genCombLoop] at h
    split at h
    · exact Or.inl h
    · rcases ih h with h2 | h2
      · unfold insertVar at h2
        split at h2
        · exact Or.inl h2
        · rcases List.mem_append.mp h2 with h3 | h3
          · exact Or.inl h3
          · exact Or.inr (by simp [List.mem_singleton.mp h3])
      · exact Or.inr (List.mem_cons_of_mem w h2)

/-! ### Lemmas about permutations -/

theorem perms_spec (r : Nat) : ∀ (l : List String), ∀ p ∈ perms r l,
    p.length = r ∧ (∀ x ∈ p, x ∈ l) ∧ (l.Nodup → p.Nodup) := by
  induction r with
  | zero =>
    intro l p hp
    simp only [perms, List.mem_singleton] at hp
    subst hp
    simp
  | succ r ih =>
    intro l p hp
    simp only [perms, List.mem_flatMap, List.mem_map] at hp
    obtain ⟨x, hx, q, hq, rfl⟩ := hp
    obtain ⟨hlen, hsub, hnd⟩ := ih (l.erase x) q hq
    refine ⟨by simp [hlen], ?_, ?_⟩
    · intro y hy
      rcases List.mem_cons.mp hy with rfl | hy
      · exact hx
      · exact List.mem_of_mem_erase (hsub y hy)
    · intro hl
      refine List.nodup_cons.mpr ⟨?_, hnd (hl.erase x)⟩
      intro hxq
      exact List.Nodup.not_mem_erase hl (hsub x hxq)

/-! ### Structural lemmas about the orchestrator -/

theorem nodup_ite_foldInsert {l : List String} (b : Bool) (vs : List String) (h : l.Nodup) :
    (if b = true then foldInsert l vs else l).Nodup := by
  split
  · exact nodup_foldInsert vs h
  · exact h

theorem stepCaseVariant_nodup (c : BuildConfig) (st : BuildState) (v : String)
    (h : st.variants.Nodup) : (stepCaseVariant c st v).variants.Nodup := by
  have h2 : (if c.leets = true then foldInsert (insertVar st.variants v) (apply_leets v 8)
      else insertVar st.variants v).Nodup := nodup_ite_foldInsert _ _ (nodup_insertVar v h)
  simp only [stepCaseVariant]
  by_cases hy : c.append_years_opt = true
  · rw [if_pos hy]
    exact nodup_ite_foldInsert _ _ (nodup_foldInsert _ h2)
  · rw [if_neg hy]
    exact nodup_ite_foldInsert _ _ h2

theorem singlePhase_nodup (c : BuildConfig) (tokens : List String) :
    (singlePhase c tokens).variants.Nodup := by
  unfold singlePhase
  apply foldl_preserve (P := fun st : BuildState => st.variants.Nodup)
  · intro st t hst
    exact foldl_preserve (P := fun st : BuildState => st.variants.Nodup)
      (fun b a hb => stepCaseVariant_nodup c b a hb) _ st hst
  · exact List.nodup_nil

theorem stepCombo_nodup (c : BuildConfig) (sy ey : Option Nat) (vs : List String)
    (combo : String) (h : vs.Nodup) : (stepCombo c sy ey vs combo).Nodup := by
  unfold stepCombo
  apply nodup_ite_foldInsert
  split
  · exact nodup_foldInsert _ (nodup_ite_foldInsert _ _ (nodup_insertVar combo h))
  · exact nodup_ite_foldInsert _ _ (nodup_insertVar combo h)

theorem comboLoop_nodup (c : BuildConfig) (mr : Nat) (sy ey : Option Nat)
    (combos : List String) : ∀ {vs : List String}, vs.Nodup →
    (comboLoop c mr sy ey combos vs).Nodup := by
  induction combos with
  | nil => intro vs h; exact h
  | cons combo rest ih =>
    intro vs h
    simp only [comboLoop]
    split
    · exact h
    · exact ih (stepCombo_nodup c sy ey vs combo h)

theorem build_wordlist_nodup (c : BuildConfig) : (build_wordlist c).Nodup := by
  simp only [build_wordlist]
  have hbase : (comboLoop c (pyOr c.max_results default_max_results)
      (singlePhase c (collectTokens c)).start_year (singlePhase c (collectTokens c)).end_year
      (generate_combinations (collectTokens c) c.max_combination
        (pyOr c.max_results default_max_results))
      (foldInsert (singlePhase c (collectTokens c)).variants (collectTokens c))).Nodup :=
    comboLoop_nodup c _ _ _ _ (nodup_foldInsert _ (singlePhase_nodup c _))
  split
  · exact List.Nodup.sublist (List.take_sublist _ _) hbase
  · exact hbase

theorem pyOr_pos {m : Nat} (h : 0 < m) (d : Nat) : pyOr (some m) d = m := by
  cases m with
  | zero => omega
  | succ n => rfl

theorem build_wordlist_length_le (c : BuildConfig) :
    (build_wordlist c).length ≤ pyOr c.max_results default_max_results := by
  simp only [build_wordlist]
  split
  · next h =>
    simp only [List.length_take]
    exact Nat.min_le_left _ _
  · next h => omega

/-! ### Year-state lemmas (mutation of `start_year` / `end_year`) -/

theorem resolveYearsStep_none (cy : Nat) :
    resolveYearsStep cy none none = (cy - 10, cy + 1) := by
  unfold resolveYearsStep
  simp only [Option.getD_none, year_range_limit]
  rw [if_neg (by omega)]

theorem resolveYearsStep_some {cy s e : Nat} (h : e - s ≤ year_range_limit) :
    resolveYearsStep cy (some s) (some e) = (s, e) := by
  unfold resolveYearsStep
  simp only [Option.getD_some]
  rw [if_neg (by omega)]

theorem stepCaseVariant_years (c : BuildConfig) (st : BuildState) (v : String)
    (hy : c.append_years_opt = true) (hs : st.start_year = some (c.current_year - 10))
    (he : st.end_year = some (c.current_year + 1)) :
    (stepCaseVariant c st v).start_year = some (c.current_year - 10) ∧
    (stepCaseVariant c st v).end_year = some (c.current_year + 1) := by
  unfold stepCaseVariant
  rw [hs, he, if_pos hy,
    resolveYearsStep_some (by simp only [year_range_limit]; omega)]
  exact ⟨rfl, rfl⟩

theorem stepCaseVariant_years_none (c : BuildConfig) (st : BuildState) (v : String)
    (hy : c.append_years_opt = true) (hs : st.start_year = none)
    (he : st.end_year = none) :
    (stepCaseVariant c st v).start_year = some (c.current_year - 10) ∧
    (stepCaseVariant c st v).end_year = some (c.current_year + 1) := by
  unfold stepCaseVariant
  rw [hs, he, if_pos hy, resolveYearsStep_none]
  exact ⟨rfl, rfl⟩

theorem mem_make_case_variants_self (t : String) : t ∈ make_case_variants t := by
  unfold make_case_variants
  rw [mem_sortStrings]
  show t ∈ foldInsert [] (t :: _)
  simp only [foldInsert, List.foldl_cons]
  apply mem_foldInsert_of_mem
  simp [insertVar]

/-! ### Code-point order bridging lemmas -/

theorem charToNat_inj {a b : Char} (h : a.toNat = b.toNat) : a = b :=
  Char.ext (congrArg UInt32.mk (BitVec.eq_of_toNat_eq h))

theorem strKey_inj {a b : String} (h : strKey a = strKey b) : a = b := by
  have hd : a.data = b.data := by
    have := List.map_injective_iff.mpr (fun x y hxy => charToNat_inj hxy) h
    exact this
  cases a
  cases b
  exact congrArg String.mk hd

theorem natLexLe_lt : ∀ {as bs : List Nat}, natLexLe as bs = true → as ≠ bs → as < bs := by
  intro as
  induction as with
  | nil =>
    intro bs h hne
    cases bs with
    | nil => exact absurd rfl hne
    | cons b bs => exact List.Lex.nil
  | cons a as ih =>
    intro bs h hne
    cases bs with
    | nil => simp [natLexLe] at h
    | cons b bs =>
      simp only [natLexLe] at h
      rcases Nat.lt_trichotomy a b with hab | hab | hab
      · exact List.Lex.rel hab
      · subst hab
        rw [if_neg (Nat.lt_irrefl a), if_neg (Nat.lt_irrefl a)] at h
        have hne2 : as ≠ bs := fun hx => hne (by rw [hx])
        exact List.Lex.cons (ih h hne2)
      · rw [if_neg (by omega), if_pos hab] at h
        exact absurd h (by simp)

theorem strLe_ne_strLt {a b : String} (h1 : strLe a b) (h2 : a ≠ b) : strLt a b := by
  have hk : strKey a ≠ strKey b := fun hx => h2 (strKey_inj hx)
  exact natLexLe_lt h1 hk

/-! ### `append_years` helper lemmas -/

theorem flatMap_two_length {α : Type} (l : List α) (f g : α → String) :
    (l.flatMap (fun y => [f y, g y])).length = 2 * l.length := by
  induction l with
  | nil => rfl
  | cons x xs ih =>
    simp only [List.flatMap_cons, List.length_append, List.length_cons, ih,
      List.length_nil]
    omega

/-! ### Year state across the single-token phase -/

theorem singlePhase_years (c : BuildConfig) (t : String) (ts : List String)
    (hy : c.append_years_opt = true) (hs : c.start_year = none) (he : c.end_year = none) :
    (singlePhase c (t :: ts)).start_year = some (c.current_year - 10) ∧
    (singlePhase c (t :: ts)).end_year = some (c.current_year + 1) := by
  have hpres : ∀ (st : BuildState) (v : String),
      (st.start_year = some (c.current_year - 10) ∧
        st.end_year = some (c.current_year + 1)) →
      ((stepCaseVariant c st v).start_year = some (c.current_year - 10) ∧
        (stepCaseVariant c st v).end_year = some (c.current_year + 1)) :=
    fun st v hp => stepCaseVariant_years c st v hy hp.1 hp.2
  unfold singlePhase
  simp only [List.foldl_cons]
  apply foldl_preserve (P := fun st : BuildState =>
    st.start_year = some (c.current_year - 10) ∧ st.end_year = some (c.current_year + 1))
  · intro st tok hst
    exact foldl_preserve hpres _ st hst
  · obtain ⟨v, rest, hmcv⟩ : ∃ v rest, make_case_variants t = v :: rest := by
      cases hmc : make_case_variants t with
      | nil => exact absurd (mem_make_case_variants_self t) (by rw [hmc]; simp)
      | cons v rest => exact ⟨v, rest, rfl⟩
    rw [hmcv, List.foldl_cons]
    apply foldl_preserve hpres
    exact stepCaseVariant_years_none c ⟨[], c.start_year, c.end_year⟩ v hy hs he

/-! ### Size of the case-variant set -/

theorem make_case_variants_length_le (t : String) : (make_case_variants t).length ≤ 5 := by
  unfold make_case_variants
  rw [length_sortStrings]
  apply Nat.le_trans (length_dedupFirst_le _)
  split
  · simp
  · simp

theorem tokens_unique_nodup (tokens : List String) : (tokens_unique tokens).Nodup :=
  nodup_dedupFirst _

/-! ### `build_wordlist` ignores `max_results` everywhere except the budget -/

theorem stepCaseVariant_setMaxResults (c : BuildConfig) (v : Option Nat) :
    stepCaseVariant (setMaxResults c v) = stepCaseVariant c := by
  funext st x
  rfl

theorem stepCombo_setMaxResults (c : BuildConfig) (v : Option Nat) :
    stepCombo (setMaxResults c v) = stepCombo c := by
  funext sy ey vs combo
  rfl

theorem collectTokens_setMaxResults (c : BuildConfig) (v : Option Nat) :
    collectTokens (setMaxResults c v) = collectTokens c := rfl

theorem singlePhase_setMaxResults (c : BuildConfig) (v : Option Nat)
    (tokens : List String) :
    singlePhase (setMaxResults c v) tokens = singlePhase c tokens := by
  unfold singlePhase
  rw [stepCaseVariant_setMaxResults]
  rfl

theorem comboLoop_setMaxResults (c : BuildConfig) (v : Option Nat) (mr : Nat)
    (sy ey : Option Nat) (combos : List String) :
    ∀ vs, comboLoop (setMaxResults c v) mr sy ey combos vs =
      comboLoop c mr sy ey combos vs := by
  induction combos with
  | nil => intro vs; rfl
  | cons x xs ih =>
    intro vs
    simp only [comboLoop]
    split
    · rfl
    · rw [stepCombo_setMaxResults]
      exact ih _

/-! ### Extension lemmas: every pipeline step only appends to the variants -/

theorem extendsTo_refl (l : List String) : extendsTo l l := ⟨[], by simp⟩

theorem extendsTo_trans {l1 l2 l3 : List String} (h1 : extendsTo l1 l2)
    (h2 : extendsTo l2 l3) : extendsTo l1 l3 := by
  obtain ⟨t1, rfl⟩ := h1
  obtain ⟨t2, rfl⟩ := h2
  exact ⟨t1 ++ t2, by simp⟩

theorem mem_of_extendsTo {l1 l2 : List String} {x : String} (h : extendsTo l1 l2)
    (hx : x ∈ l1) : x ∈ l2 := by
  obtain ⟨t, rfl⟩ := h
  exact List.mem_append_left t hx

theorem extendsTo_length_le {l1 l2 : List String} (h : extendsTo l1 l2) :
    l1.length ≤ l2.length := by
  obtain ⟨t, rfl⟩ := h
  simp

theorem take_of_extendsTo {l1 l2 : List String} {n : Nat} (h : extendsTo l1 l2)
    (hn : n ≤ l1.length) : l2.take n = l1.take n := by
  obtain ⟨t, rfl⟩ := h
  exact List.take_append_of_le_length hn

theorem extendsTo_insertVar (l : List String) (v : String) :
    extendsTo l (insertVar l v) := by
  unfold insertVar
  split
  · exact extendsTo_refl l
  · exact ⟨[v], rfl⟩

theorem extendsTo_foldInsert (vs : List String) : ∀ l : List String,
    extendsTo l (foldInsert l vs) := by
  induction vs with
  | nil => intro l; exact extendsTo_refl l
  | cons v vs ih =>
    intro l
    simp only [foldInsert, List.foldl_cons]
    exact extendsTo_trans (extendsTo_insertVar l v) (ih (insertVar l v))

theorem extendsTo_ite_foldInsert (b : Bool) (vs l : List String) :
    extendsTo l (if b = true then foldInsert l vs else l) := by
  split
  · exact extendsTo_foldInsert vs l
  · exact extendsTo_refl l

theorem extendsTo_stepCaseVariant (c : BuildConfig) (st : BuildState) (v : String) :
    extendsTo st.variants (stepCaseVariant c st v).variants := by
  have h1 := extendsTo_insertVar st.variants v
  have h2 := extendsTo_trans h1 (extendsTo_ite_foldInsert c.leets (apply_leets v 8)
    (insertVar st.variants v))
  simp only [stepCaseVariant]
  by_cases hy : c.append_years_opt = true
  · rw [if_pos hy]
    exact extendsTo_trans (extendsTo_trans h2 (extendsTo_foldInsert _ _))
      (extendsTo_ite_foldInsert _ _ _)
  · rw [if_neg hy]
    exact extendsTo_trans h2 (extendsTo_ite_foldInsert _ _ _)

theorem extendsTo_foldl_caseVariants (c : BuildConfig) (vsl : List String) :
    ∀ st : BuildState,
      extendsTo st.variants ((vsl.foldl (stepCaseVariant c) st).variants) := by
  induction vsl with
  | nil => intro st; exact extendsTo_refl _
  | cons v vs ih =>
    intro st
    simp only [List.foldl_cons]
    exact extendsTo_trans (extendsTo_stepCaseVariant c st v) (ih _)

theorem extendsTo_foldl_tokens (c : BuildConfig) (tokens : List String) :
    ∀ st : BuildState, extendsTo st.variants
      ((tokens.foldl (fun st t => (make_case_variants t).foldl (stepCaseVariant c) st)
        st).variants) := by
  induction tokens with
  | nil => intro st; exact extendsTo_refl _
  | cons t ts ih =>
    intro st
    simp only [List.foldl_cons]
    exact extendsTo_trans (extendsTo_foldl_caseVariants c (make_case_variants t) st) (ih _)

theorem extendsTo_stepCombo (c : BuildConfig) (sy ey : Option Nat) (vs : List String)
    (combo : String) : extendsTo vs (stepCombo c sy ey vs combo) := by
  have h1 := extendsTo_insertVar vs combo
  have h2 := extendsTo_trans h1 (extendsTo_ite_foldInsert c.leets (apply_leets combo 4)
    (insertVar vs combo))
  simp only [stepCombo]
  by_cases hy : c.append_years_opt = true
  · rw [if_pos hy]
    exact extendsTo_trans (extendsTo_trans h2 (extendsTo_foldInsert _ _))
      (extendsTo_ite_foldInsert _ _ _)
  · rw [if_neg hy]
    exact extendsTo_trans h2 (extendsTo_ite_foldInsert _ _ _)

theorem extendsTo_comboLoop (c : BuildConfig) (mr : Nat) (sy ey : Option Nat)
    (combos : List String) : ∀ vs : List String,
      extendsTo vs (comboLoop c mr sy ey combos vs) := by
  induction combos with
  | nil => intro vs; exact extendsTo_refl vs
  | cons combo rest ih =>
    intro vs
    simp only [comboLoop]
    split
    · exact extendsTo_refl vs
    · exact extendsTo_trans (extendsTo_stepCombo c sy ey vs combo) (ih _)

/-! ### Membership lemmas: inserted year variants stay in the variants -/

theorem mem_insertVar_self (l : List String) (v : String) : v ∈ insertVar l v := by
  unfold insertVar
  split
  · assumption
  · simp

theorem mem_foldInsert_self (vs : List String) : ∀ (l : List String) (x : String),
    x ∈ vs → x ∈ foldInsert l vs := by
  induction vs with
  | nil => intro l x h; cases h
  | cons v vs ih =>
    intro l x h
    simp only [foldInsert, List.foldl_cons]
    rcases List.mem_cons.mp h with rfl | h2
    · exact mem_foldInsert_of_mem vs (mem_insertVar_self l x)
    · exact ih _ x h2

theorem stepCaseVariant_years_stable (c : BuildConfig) (st : BuildState) (v : String)
    (hy : c.append_years_opt = true) {S E : Nat} (hse : E - S ≤ year_range_limit)
    (hs : st.start_year = some S) (he : st.end_year = some E) :
    (stepCaseVariant c st v).start_year = some S ∧
    (stepCaseVariant c st v).end_year = some E := by
  simp only [stepCaseVariant]
  rw [hs, he, if_pos hy, resolveYearsStep_some hse]
  exact ⟨rfl, rfl⟩

theorem stepCaseVariant_inserts_years (c : BuildConfig) (st : BuildState) (v : String)
    (hy : c.append_years_opt = true) {S E : Nat} (hse : E - S ≤ year_range_limit)
    (hs : st.start_year = some S) (he : st.end_year = some E)
    {x : String} (hx : x ∈ append_years v S E) :
    x ∈ (stepCaseVariant c st v).variants := by
  simp only [stepCaseVariant]
  rw [hs, he, if_pos hy, resolveYearsStep_some hse]
  have hx3 : x ∈ foldInsert (if c.leets = true
      then foldInsert (insertVar st.variants v) (apply_leets v 8)
      else insertVar st.variants v) (append_years v S E) :=
    mem_foldInsert_self _ _ x hx
  show x ∈ (if c.attach_specials_opt = true then foldInsert _ _ else _)
  split
  · exact mem_foldInsert_of_mem _ hx3
  · exact hx3

theorem foldl_case_variants_years_stable (c : BuildConfig)
    (hy : c.append_years_opt = true) {S E : Nat} (hse : E - S ≤ year_range_limit)
    (vsl : List String) : ∀ st : BuildState,
      st.start_year = some S → st.end_year = some E →
      (vsl.foldl (stepCaseVariant c) st).start_year = some S ∧
      (vsl.foldl (stepCaseVariant c) st).end_year = some E := by
  induction vsl with
  | nil => intro st hs he; exact ⟨hs, he⟩
  | cons v vs ih =>
    intro st hs he
    simp only [List.foldl_cons]
    obtain ⟨h1, h2⟩ := stepCaseVariant_years_stable c st v hy hse hs he
    exact ih _ h1 h2

theorem foldl_case_variants_inserts_years (c : BuildConfig)
    (hy : c.append_years_opt = true) {S E : Nat} (hse : E - S ≤ year_range_limit)
    (vsl : List String) : ∀ st : BuildState,
      st.start_year = some S → st.end_year = some E →
      ∀ v ∈ vsl, ∀ x ∈ append_years v S E,
        x ∈ ((vsl.foldl (stepCaseVariant c) st).variants) := by
  induction vsl with
  | nil => intro st _ _ v hv; cases hv
  | cons w ws ih =>
    intro st hs he v hv x hx
    simp only [List.foldl_cons]
    rcases List.mem_cons.mp hv with rfl | hv2
    · exact mem_of_extendsTo (extendsTo_foldl_caseVariants c ws _)
        (stepCaseVariant_inserts_years c st v hy hse hs he hx)
    · obtain ⟨h1, h2⟩ := stepCaseVariant_years_stable c st w hy hse hs he
      exact ih _ h1 h2 v hv2 x hx

theorem foldl_tokens_inserts_years (c : BuildConfig)
    (hy : c.append_years_opt = true) {S E : Nat} (hse : E - S ≤ year_range_limit)
    (tokens : List String) : ∀ st : BuildState,
      st.start_year = some S → st.end_year = some E →
      ∀ t ∈ tokens, ∀ v ∈ make_case_variants t, ∀ x ∈ append_years v S E,
        x ∈ ((tokens.foldl
          (fun st t => (make_case_variants t).foldl (stepCaseVariant c) st)
          st).variants) := by
  induction tokens with
  | nil => intro st _ _ t ht; cases ht
  | cons u us ih =>
    intro st hs he t ht v hv x hx
    simp only [List.foldl_cons]
    rcases List.mem_cons.mp ht with rfl | ht2
    · exact mem_of_extendsTo (extendsTo_foldl_tokens c us _)
        (foldl_case_variants_inserts_years c hy hse (make_case_variants t) st hs he
          v hv x hx)
    · obtain ⟨h1, h2⟩ := foldl_case_variants_years_stable c hy hse
        (make_case_variants u) st hs he
      exact ih _ h1 h2 t ht2 v hv x hx

theorem singlePhase_inserts_years (c : BuildConfig) (hy : c.append_years_opt = true)
    {S E : Nat} (hse : E - S ≤ year_range_limit)
    (hcs : c.start_year = some S) (hce : c.end_year = some E)
    (tokens : List String) (t : String) (ht : t ∈ tokens)
    (v : String) (hv : v ∈ make_case_variants t)
    (x : String) (hx : x ∈ append_years v S E) :
    x ∈ (singlePhase c tokens).variants := by
  unfold singlePhase
  exact foldl_tokens_inserts_years c hy hse tokens ⟨[], c.start_year, c.end_year⟩
    hcs hce t ht v hv x hx

theorem nodup_subset_length_le {l1 l2 : List String} (h1 : l1.Nodup) (h2 : l1 ⊆ l2) :
    l1.length ≤ l2.length := by
  have h3 : l1.toFinset.card = l1.length := List.toFinset_card_of_nodup h1
  have h4 : l1.toFinset ⊆ l2.toFinset := by
    intro x hx
    rw [List.mem_toFinset] at hx ⊢
    exact h2 hx
  have h5 := Finset.card_le_card h4
  have h6 := l2.toFinset_card_le
  omega

/-! ## Claim theorems -/

/-- C6 (amended): for every token and every cap of at least 2, `apply_leets`
returns at most `cap` strings and its result contains the original token.
(For a cap of 1 and a substitutable token the result has 2 elements, because
the source checks the cap only after inserting each new variant.) -/
theorem C6_apply_leets_capped (token : String) (cap : Nat) (h : 2 ≤ cap) :
    (apply_leets token cap).length ≤ cap ∧ token ∈ apply_leets token cap := by
  constructor
  · unfold apply_leets
    rw [length_sortStrings]
    apply leetFold_length_le cap _ _
    simp only [List.length_singleton]
    omega
  · unfold apply_leets
    rw [mem_sortStrings]
    exact mem_leetFold_of_mem cap _ (by simp)

/-- C6 witness: the amended bound at token `"a"` and cap 2. -/
theorem C6_apply_leets_capped_witness :
    2 ≤ 2 ∧ ((apply_leets "a" 2).length ≤ 2 ∧ "a" ∈ apply_leets "a" 2) :=
  ⟨by decide, C6_apply_leets_capped "a" 2 (by decide)⟩

/-- C6 counterexample: with cap 1 the leet generator returns 2 variants, so the
claimed bound fails for C = 1. -/
theorem C6_cap_one_cex :
    apply_leets "a" 1 = ["4", "a"] ∧ ¬ ((apply_leets "a" 1).length ≤ 1) := by
  constructor
  · decide
  · decide

/-- C7: every variant present under cap `c1` is still present under any larger
cap `c2`: raising the cap never removes a variant. -/
theorem C7_apply_leets_monotone (token : String) (c1 c2 : Nat) (h : c1 ≤ c2) :
    ∀ x ∈ apply_leets token c1, x ∈ apply_leets token c2 := by
  intro x hx
  unfold apply_leets at hx ⊢
  rw [mem_sortStrings] at hx ⊢
  exact leetFold_mono h _ hx

/-- C7 witness: the variant `"4"` produced at cap 2 for token `"a"` is still
present at cap 3. -/
theorem C7_apply_leets_monotone_witness :
    2 ≤ 3 ∧ "4" ∈ apply_leets "a" 3 :=
  ⟨by decide, C7_apply_leets_monotone "a" 2 3 (by decide) "4" (by decide)⟩

/-- C8: for every token and year range with `s ≤ e`, `append_years` returns
exactly `2*(e-s+1)` strings, every element starts with the token, and the list
is in ascending-year order with the full form before the two-digit short form
of each year. -/
theorem C8_append_years_spec (token : String) (s e : Nat) (h : s ≤ e) :
    (append_years token s e).length = 2 * (e - s + 1) ∧
    (∀ x ∈ append_years token s e, ∃ r, x = token ++ r) ∧
    append_years token s e = (List.range (e - s + 1)).flatMap (fun i =>
      [token ++ toString (s + i), token ++ lastTwoStr (toString (s + i))]) := by
  have hn : e + 1 - s = e - s + 1 := by omega
  refine ⟨?_, ?_, ?_⟩
  · unfold append_years
    rw [flatMap_two_length, List.length_range', hn]
  · intro x hx
    unfold append_years at hx
    rw [List.mem_flatMap] at hx
    obtain ⟨y, _, hmem⟩ := hx
    simp only [List.mem_cons, List.not_mem_nil, or_false] at hmem
    rcases hmem with rfl | rfl
    · exact ⟨toString y, rfl⟩
    · exact ⟨lastTwoStr (toString y), rfl⟩
  · unfold append_years
    rw [hn, List.range'_eq_map_range, List.flatMap_map]

/-- C8 witness: the year-append shape at token `"tok"` over 2023-2024. -/
theorem C8_append_years_spec_witness :
    2023 ≤ 2024 ∧ (append_years "tok" 2023 2024).length = 2 * (2024 - 2023 + 1) :=
  ⟨by decide, (C8_append_years_spec "tok" 2023 2024 (by decide)).1⟩

/-- C9: one combiner invocation yields pairwise-distinct strings, each the
concatenation of between 1 and `K` distinct tokens of the deduplicated seed
list, and never yields more than `B` strings. -/
theorem C9_generate_combinations_spec (tokens : List String) (K B : Nat) :
    (generate_combinations tokens K B).Nodup ∧
    (generate_combinations tokens K B).length ≤ B ∧
    ∀ w ∈ generate_combinations tokens K B, ∃ p, w = String.join p ∧ p.Nodup ∧
      1 ≤ p.length ∧ p.length ≤ K ∧ ∀ x ∈ p, x ∈ tokens_unique tokens := by
  refine ⟨genCombLoop_nodup B _ List.nodup_nil,
    genCombLoop_length_le B _ (by simp), ?_⟩
  intro w hw
  rcases mem_genCombLoop B _ hw with h | h
  · exact absurd h (List.not_mem_nil w)
  · unfold combCandidates at h
    rw [List.mem_flatMap] at h
    obtain ⟨r, hr, hw2⟩ := h
    rw [List.mem_map] at hw2
    obtain ⟨p, hp, rfl⟩ := hw2
    obtain ⟨hlen, hsub, hnd⟩ := perms_spec r _ p hp
    rw [List.mem_range'_1] at hr
    exact ⟨p, rfl, hnd (tokens_unique_nodup tokens), by omega, by omega, hsub⟩

/-- C9 witness: the combiner output for tokens `["a", "b"]`, arity 2,
budget 10, at its element `"ab"`. -/
theorem C9_generate_combinations_spec_witness :
    ∃ p, "ab" = String.join p ∧ p.Nodup ∧ 1 ≤ p.length ∧ p.length ≤ 2 ∧
      ∀ x ∈ p, x ∈ tokens_unique ["a", "b"] :=
  (C9_generate_combinations_spec ["a", "b"] 2 10).2.2 "ab" (by decide)

/-- C10: `make_case_variants` returns its at most 5 variants sorted in strict
code-point lexicographic order, so the first variant processed is the
lexicographically smallest one — for token `"b"` that is `"B"`, not the token
itself. -/
theorem C10_make_case_variants_sorted :
    (∀ t, List.Sorted strLt (make_case_variants t) ∧
      (make_case_variants t).length ≤ 5) ∧
    (make_case_variants "b").head? = some "B" ∧ ("B" : String) ≠ "b" := by
  refine ⟨fun t => ⟨?_, make_case_variants_length_le t⟩, by decide, by decide⟩
  have hs : List.Sorted strLe (make_case_variants t) := by
    unfold make_case_variants
    exact sorted_sortStrings _
  have hnd : (make_case_variants t).Nodup := by
    unfold make_case_variants
    exact nodup_sortStrings (nodup_dedupFirst _)
  exact (List.Pairwise.and hs hnd).imp (fun hab => strLe_ne_strLt hab.1 hab.2)

/-- C1: whenever `max_results` is explicitly supplied and positive, the list
returned by `build_wordlist` has at most that many elements and contains no
duplicate strings. -/
theorem C1_build_wordlist_capped (c : BuildConfig) (m : Nat)
    (hm : c.max_results = some m) (hpos : 0 < m) :
    (build_wordlist c).length ≤ m ∧ (build_wordlist c).Nodup := by
  constructor
  · have hlen := build_wordlist_length_le c
    rwa [hm, pyOr_pos hpos] at hlen
  · exact build_wordlist_nodup c

/-- C1 witness: a one-token build with `max_results = 2`. -/
theorem C1_build_wordlist_capped_witness :
    (⟨["ab"], [], [], [], false, false, false, none, none, false, some 2, 1, 2025⟩ :
        BuildConfig).max_results = some 2 ∧ 0 < 2 ∧
      ((build_wordlist ⟨["ab"], [], [], [], false, false, false, none, none, false,
          some 2, 1, 2025⟩).length ≤ 2 ∧
        (build_wordlist ⟨["ab"], [], [], [], false, false, false, none, none, false,
          some 2, 1, 2025⟩).Nodup) :=
  ⟨rfl, by decide, C1_build_wordlist_capped _ 2 rfl (by decide)⟩

/-- C2 counterexample: with `max_results = 1`, the variants accumulated by the
single-token phase — an intermediate state of `build_wordlist` — already hold
3 strings, exceeding the budget; only the final truncation restores it. -/
theorem C2_intermediate_exceeds_cex :
    (singlePhase cfgC2 (collectTokens cfgC2)).variants.length = 3 ∧
    pyOr cfgC2.max_results default_max_results = 1 ∧
    build_wordlist cfgC2 = ["AB"] := by
  refine ⟨by decide, by decide, by decide⟩

/-- C2 (amended): the final returned list never exceeds a positive explicit
`max_results`, but intermediate accumulation may: the single-token phase
inserts without consulting the budget (witnessed by `cfgC2`, where the
intermediate variant set holds 3 strings against a budget of 1). -/
theorem C2_final_only_capped :
    (∀ (c : BuildConfig) (m : Nat), c.max_results = some m → 0 < m →
      (build_wordlist c).length ≤ m) ∧
    ((singlePhase cfgC2 (collectTokens cfgC2)).variants.length = 3 ∧
      pyOr cfgC2.max_results default_max_results = 1) := by
  refine ⟨?_, by decide, by decide⟩
  intro c m hm hpos
  have hlen := build_wordlist_length_le c
  rwa [hm, pyOr_pos hpos] at hlen

/-- C2 witness: the amended cap at the concrete configuration `cfgC2`. -/
theorem C2_final_only_capped_witness :
    cfgC2.max_results = some 1 ∧ 0 < 1 ∧ (build_wordlist cfgC2).length ≤ 1 :=
  ⟨rfl, by decide, C2_final_only_capped.1 cfgC2 1 rfl (by decide)⟩

/-- C4 counterexample: a call carrying all three offending fields at once
(`max_results = 0`, `max_combination = 0`, explicit `end_year < start_year`)
is not rejected: generation runs and returns a normal list. -/
theorem C4_no_rejection_cex :
    build_wordlist cfgC4 = ["AB", "Ab", "ab"] ∧
    pyOr cfgC4.max_results default_max_results = 50000 := by
  refine ⟨by decide, by decide⟩

/-- C4 (amended): `build_wordlist` performs no validation: an explicit
`max_results` of 0 is silently replaced by the default (Python falsiness of
`0` in `max_results or DEFAULT`), a `max_combination` of 0 silently yields no
combinations, and an explicit `end_year` below `start_year` silently yields an
empty year expansion; no call is rejected. -/
theorem C4_no_validation :
    (∀ c : BuildConfig, c.max_results = some 0 →
      build_wordlist c = build_wordlist (setMaxResults c none)) ∧
    (∀ (v : String) (s e : Nat), e < s → append_years v s e = []) ∧
    (∀ (tokens : List String) (B : Nat), generate_combinations tokens 0 B = []) := by
  refine ⟨?_, ?_, ?_⟩
  · intro c hm
    simp only [build_wordlist]
    rw [hm, collectTokens_setMaxResults, singlePhase_setMaxResults,
      comboLoop_setMaxResults]
    rfl
  · intro v s e h
    unfold append_years
    have hz : e + 1 - s = 0 := by omega
    rw [hz]
    rfl
  · intro tokens B
    rfl

/-- C4 witness: the three amended behaviours at concrete inputs. -/
theorem C4_no_validation_witness :
    cfgC4.max_results = some 0 ∧
    build_wordlist cfgC4 = build_wordlist (setMaxResults cfgC4 none) ∧
    (2000 : Nat) < 2030 ∧ append_years "x" 2030 2000 = [] ∧
    generate_combinations ["a"] 0 5 = [] :=
  ⟨rfl, C4_no_validation.1 cfgC4 rfl, by decide,
    C4_no_validation.2.1 "x" 2030 2000 (by decide), C4_no_validation.2.2 ["a"] 5⟩

/-- C5 counterexample: with years enabled and no explicit bounds, the
combination `"45"` receives year suffixes for 2015 and 2026 — the wide
default window `current_year-10 .. current_year+1` — not a narrower 5-year
window ending at the current year. -/
theorem C5_wide_combo_window_cex :
    "452015" ∈ build_wordlist cfgC5 ∧ "452026" ∈ build_wordlist cfgC5 ∧
    (2015 : Nat) < 2025 - 5 ∧ (2025 : Nat) < 2026 := by
  refine ⟨by decide, by decide, by decide, by decide⟩

/-- C5 (amended): when year appending is enabled with no explicit bounds and
the seed set is non-empty, the single-token phase permanently stores
`start_year = current_year - 10` and `end_year = current_year + 1`, and the
combination phase reuses exactly this wide window; the narrower 5-year
fallback `current_year-5 .. current_year` is dead code in that case. -/
theorem C5_combo_window_same (c : BuildConfig) (t : String) (ts : List String)
    (hy : c.append_years_opt = true) (hs : c.start_year = none)
    (he : c.end_year = none) (hcy : 10 < c.current_year)
    (htok : collectTokens c = t :: ts) :
    comboYearWindow c.current_year (singlePhase c (collectTokens c)).start_year
      (singlePhase c (collectTokens c)).end_year =
      (c.current_year - 10, c.current_year + 1) := by
  rw [htok]
  obtain ⟨h1, h2⟩ := singlePhase_years c t ts hy hs he
  rw [h1, h2]
  unfold comboYearWindow
  rw [pyOr_pos (show 0 < c.current_year - 10 by omega),
    pyOr_pos (show 0 < c.current_year + 1 by omega)]

/-- C5 witness: the reused wide window at the concrete configuration
`cfgC5` (current year 2025, window 2015-2026). -/
theorem C5_combo_window_same_witness :
    cfgC5.append_years_opt = true ∧ cfgC5.start_year = none ∧
    cfgC5.end_year = none ∧ 10 < cfgC5.current_year ∧
    collectTokens cfgC5 = ["4", "5"] ∧
    comboYearWindow cfgC5.current_year
      (singlePhase cfgC5 (collectTokens cfgC5)).start_year
      (singlePhase cfgC5 (collectTokens cfgC5)).end_year =
      (cfgC5.current_year - 10, cfgC5.current_year + 1) :=
  ⟨rfl, rfl, rfl, by decide, by decide,
    C5_combo_window_same cfgC5 "4" ["5"] rfl rfl rfl (by decide) (by decide)⟩

/-! ### C3 helper chain: the head of the output is fixed by the first
case-variant step, and the full expansion has hundreds of entries -/

theorem firstStepC3_extends_sp : extendsTo firstStepC3.variants
    (singlePhase cfgC3big ["ab", "4"]).variants := by
  have hmcv1 : make_case_variants "ab" = ["AB", "Ab", "ab"] := by decide
  have hmcv2 : make_case_variants "4" = ["4"] := by decide
  unfold singlePhase
  simp only [List.foldl_cons, List.foldl_nil]
  rw [hmcv1, hmcv2]
  simp only [List.foldl_cons, List.foldl_nil]
  exact extendsTo_trans (extendsTo_stepCaseVariant cfgC3big firstStepC3 "Ab")
    (extendsTo_trans (extendsTo_stepCaseVariant cfgC3big _ "ab")
      (extendsTo_stepCaseVariant cfgC3big _ "4"))

theorem sp_extends_vs2C3 (mr : Nat) :
    extendsTo (singlePhase cfgC3big ["ab", "4"]).variants (vs2C3 mr) := by
  unfold vs2C3
  exact extendsTo_trans (extendsTo_foldInsert _ _) (extendsTo_comboLoop _ _ _ _ _ _)

theorem vs2C3_extends (mr : Nat) : extendsTo firstStepC3.variants (vs2C3 mr) :=
  extendsTo_trans firstStepC3_extends_sp (sp_extends_vs2C3 mr)

theorem vs2C3_take3 (mr : Nat) : (vs2C3 mr).take 3 = ["AB", "AB2000", "AB00"] := by
  have h1 : firstStepC3.variants.take 3 = ["AB", "AB2000", "AB00"] := by decide
  have h2 : 3 ≤ firstStepC3.variants.length := by decide
  rw [take_of_extendsTo (vs2C3_extends mr) h2, h1]

theorem vs2C3_len_gt3 (mr : Nat) : 3 < (vs2C3 mr).length := by
  have h2 : 4 ≤ firstStepC3.variants.length := by decide
  have h3 := extendsTo_length_le (vs2C3_extends mr)
  omega

theorem build_big_eq : build_wordlist cfgC3big =
    if 100000 < (vs2C3 100000).length then (vs2C3 100000).take 100000
    else vs2C3 100000 := by
  have htokB : collectTokens cfgC3big = ["ab", "4"] := by decide
  have hmr : pyOr cfgC3big.max_results default_max_results = 100000 := rfl
  have hK : cfgC3big.max_combination = 1 := rfl
  simp only [build_wordlist, vs2C3]
  rw [htokB, hmr, hK]

theorem build_small_eq : build_wordlist cfgC3small =
    if 3 < (vs2C3 3).length then (vs2C3 3).take 3 else vs2C3 3 := by
  have htokB : collectTokens cfgC3big = ["ab", "4"] := by decide
  have hmr : pyOr cfgC3small.max_results default_max_results = 3 := rfl
  have hK : (setMaxResults cfgC3big (some 3)).max_combination = 1 := rfl
  simp only [cfgC3small] at hmr ⊢
  simp only [build_wordlist, vs2C3]
  rw [collectTokens_setMaxResults, singlePhase_setMaxResults, comboLoop_setMaxResults,
    htokB, hmr, hK]

theorem build_small_result :
    build_wordlist cfgC3small = ["AB", "AB2000", "AB00"] := by
  rw [build_small_eq, if_pos (vs2C3_len_gt3 3), vs2C3_take3]

theorem build_big_take3 :
    (build_wordlist cfgC3big).take 3 = ["AB", "AB2000", "AB00"] := by
  rw [build_big_eq]
  by_cases hP : 100000 < (vs2C3 100000).length
  · rw [if_pos hP, List.take_take, min_eq_left (by omega : (3 : Nat) ≤ 100000)]
    exact vs2C3_take3 100000
  · rw [if_neg hP]
    exact vs2C3_take3 100000

theorem vs2C3_len_ge248 : 248 ≤ (vs2C3 100000).length := by
  have hnd : (append_years "AB" 2000 2030 ++ append_years "Ab" 2000 2030 ++
      append_years "ab" 2000 2030 ++ append_years "4" 2000 2030).Nodup := by decide
  have hlenW : (append_years "AB" 2000 2030 ++ append_years "Ab" 2000 2030 ++
      append_years "ab" 2000 2030 ++ append_years "4" 2000 2030).length = 248 := by
    decide
  have hse : (2030 : Nat) - 2000 ≤ year_range_limit := by decide
  have hsub : (append_years "AB" 2000 2030 ++ append_years "Ab" 2000 2030 ++
      append_years "ab" 2000 2030 ++ append_years "4" 2000 2030) ⊆ vs2C3 100000 := by
    intro x hx
    apply mem_of_extendsTo (sp_extends_vs2C3 100000)
    rcases List.mem_append.mp hx with hx1 | hx1
    · rcases List.mem_append.mp hx1 with hx2 | hx2
      · rcases List.mem_append.mp hx2 with hx3 | hx3
        · exact singlePhase_inserts_years cfgC3big rfl hse rfl rfl _ "ab" (by decide)
            "AB" (by decide) x hx3
        · exact singlePhase_inserts_years cfgC3big rfl hse rfl rfl _ "ab" (by decide)
            "Ab" (by decide) x hx3
      · exact singlePhase_inserts_years cfgC3big rfl hse rfl rfl _ "ab" (by decide)
          "ab" (by decide) x hx2
    · exact singlePhase_inserts_years cfgC3big rfl hse rfl rfl _ "4" (by decide)
        "4" (by decide) x hx1
  have := nodup_subset_length_le hnd hsub
  omega

theorem build_big_len : 200 ≤ (build_wordlist cfgC3big).length := by
  have h248 := vs2C3_len_ge248
  rw [build_big_eq]
  by_cases hP : 100000 < (vs2C3 100000).length
  · rw [if_pos hP, List.length_take]
    omega
  · rw [if_neg hP]
    omega

/-- C3 counterexample: at `max_results = 3` in a configuration whose full
expansion has hundreds of entries, the 3 returned strings are the first case
variant `"AB"` followed by two of its year variants; the case variant `"Ab"`
comes later in generation order, so case variants of the first seed token do
not all precede other produced strings. -/
theorem C3_first_three_not_case_variants_cex :
    build_wordlist cfgC3small = ["AB", "AB2000", "AB00"] ∧
    "AB2000" ∉ make_case_variants "ab" ∧
    "Ab" ∈ make_case_variants "ab" ∧ "Ab" ∉ build_wordlist cfgC3small ∧
    200 ≤ (build_wordlist cfgC3big).length := by
  refine ⟨build_small_result, by decide, by decide, ?_, build_big_len⟩
  rw [build_small_result]
  decide

/-- C3 (amended): at `max_results = 3` in a configuration producing hundreds
of entries, the output has length exactly 3 and equals the first 3 strings of
the same build under an effectively unlimited budget — the first 3 in
generation order; those entries are not all case variants of the first seed
token, because the transform variants of each case variant are generated
before the next case variant. -/
theorem C3_first_three_in_generation_order :
    (build_wordlist cfgC3small).length = 3 ∧
    build_wordlist cfgC3small = (build_wordlist cfgC3big).take 3 ∧
    200 ≤ (build_wordlist cfgC3big).length := by
  refine ⟨?_, ?_, build_big_len⟩
  · rw [build_small_result]
    rfl
  · rw [build_small_result, build_big_take3]
